import Mathlib

/-!
Verification of `export_repo.py`: a line collector (`read_all_lines`), a
chunk partitioner / writer (`write_exports`), and the naming scheme for
output units.  Python lists of lines are modelled as `List String`, the
while-loop of `write_exports` as a fuel-indexed recursion (the fuel
`lines.length` is always sufficient because the cursor advances by a
positive target each iteration), and the filesystem seen by the collector
as a function `String → Except String (List String)` returning the raw
lines of a file (as Python's line iteration yields them) or an error.
-/

/-- Size of odd-indexed chunks: the literal `225` at line 33 of the source. -/
def SIZE_ODD : Nat := 225

/-- Size of even-indexed chunks: the literal `180` at line 33 of the source. -/
def SIZE_EVEN : Nat := 180

/-- Source line 33: `target = 225 if index % 2 == 1 else 180`. -/
def targetOf (index : Nat) : Nat :=
  if index % 2 = 1 then SIZE_ODD else SIZE_EVEN

/-- Python `f"{n:03d}"` for a natural number: the decimal digits of `n`,
left-padded with zeros to a minimum width of 3. -/
def zeroPad3 (n : Nat) : String :=
  String.mk (List.replicate (3 - (Nat.repr n).length) '0' ++ (Nat.repr n).data)

/-- Source line 38: `f"part_{index:03d}.txt"`. -/
def partName (index : Nat) : String :=
  "part_" ++ zeroPad3 index ++ ".txt"

/-- One output unit produced by `write_exports`: its chunk index, the file
name it is written to, the (padded) lines written, and how many trailing
padding lines (`target - len(chunk)`, source line 37) were appended. -/
structure OutUnit where
  index : Nat
  name : String
  lines : List String
  padCount : Nat
deriving Repr, DecidableEq

/-- Source line 34: the slice `chunk = lines[pos:pos + target]`. -/
def chunkAt (lines : List String) (index pos : Nat) : List String :=
  (lines.drop pos).take (targetOf index)

/-- One iteration's emitted unit (source lines 33-40): the slice, padded
with `"\n"` lines up to `target` when it is short, written to
`part_{index:03d}.txt`. -/
def unitAt (lines : List String) (index pos : Nat) : OutUnit :=
  { index := index
    name := partName index
    lines :=
      if (chunkAt lines index pos).length < targetOf index then
        chunkAt lines index pos
          ++ List.replicate (targetOf index - (chunkAt lines index pos).length) "\n"
      else chunkAt lines index pos
    padCount := targetOf index - (chunkAt lines index pos).length }

/-- The while-loop of `write_exports` (source lines 32-41), with explicit
fuel.  Each iteration slices `lines[pos:pos+target]`, pads a short slice,
emits the unit, and advances `pos` by the full `target`. -/
def writeLoop (lines : List String) : Nat → Nat → Nat → List OutUnit
  | 0, _, _ => []
  | fuel + 1, index, pos =>
    if pos < lines.length then
      unitAt lines index pos :: writeLoop lines fuel (index + 1) (pos + targetOf index)
    else []

/-- Source lines 28-41: `write_exports` starts at `index = 1`, `pos = 0`;
`lines.length` iterations of fuel always suffice. -/
def write_exports (lines : List String) : List OutUnit :=
  writeLoop lines lines.length 1 0

/-- The lines of a unit with its padding lines removed: the first
`len - padCount` lines written. -/
def unpadded (u : OutUnit) : List String :=
  u.lines.take (u.lines.length - u.padCount)

/-- Source line 20: `line if line.endswith("\n") else line + "\n"`.
Python's `endswith("\n")` holds exactly when the last character is `'\n'`. -/
def normalizeLine (line : String) : String :=
  if line.data.getLast? = some '\n' then line else line ++ "\n"

/-- Source line 16: `f"-- {path} --\n"`. -/
def headerLine (path : String) : String :=
  "-- " ++ path ++ " --\n"

/-- Source line 22: `f"Error reading {path}: {exc}"`. -/
def errMsg (path exc : String) : String :=
  "Error reading " ++ path ++ ": " ++ exc

/-- Content lines contributed by one file (source lines 17-21): on a
successful read, each raw line normalized to end in a newline; on a failed
read, no content lines. -/
def fileLines (fs : String → Except String (List String)) (path : String) :
    List String :=
  match fs path with
  | Except.ok raw => raw.map normalizeLine
  | Except.error _ => []

/-- Diagnostics printed for one file (source line 22): one message when the
read fails, none otherwise. -/
def fileDiags (fs : String → Except String (List String)) (path : String) :
    List String :=
  match fs path with
  | Except.ok _ => []
  | Except.error exc => [errMsg path exc]

/-- Source lines 11-25: `read_all_lines` emits, for each path in order, its
header line, then its content lines, then one blank separator line. -/
def read_all_lines (fs : String → Except String (List String)) :
    List String → List String
  | [] => []
  | path :: rest =>
    headerLine path :: (fileLines fs path ++ "\n" :: read_all_lines fs rest)

/-- Diagnostic stream of `read_all_lines` over a file list. -/
def read_diags (fs : String → Except String (List String)) :
    List String → List String
  | [] => []
  | path :: rest => fileDiags fs path ++ read_diags fs rest

/-- The number of trailing newline characters of a string. -/
def trailingNL (s : String) : Nat :=
  (s.data.reverse.takeWhile (fun c => c == '\n')).length

/-- A string shaped like one line of Python file iteration: no newline
character anywhere except possibly as its final character. -/
def LineShaped (l : String) : Prop :=
  ∀ c ∈ l.data.dropLast, c ≠ '\n'

instance (l : String) : Decidable (LineShaped l) := by
  unfold LineShaped
  infer_instance

/-! ### A small heap model of Python list mutation (for the frame claim)

Python lists are references into a heap.  `lines[pos:pos+target]` allocates
a fresh list, and `chunk.extend(...)` mutates only the chunk's own cell. -/

/-- A heap of Python list values, addressed by allocation order. -/
structure PyHeap where
  store : Nat → List String
  next : Nat

/-- Allocate a fresh cell holding `v`; returns the new heap and address. -/
def heapAlloc (h : PyHeap) (v : List String) : PyHeap × Nat :=
  (⟨fun a => if a = h.next then v else h.store a, h.next + 1⟩, h.next)

/-- In-place update of the cell at address `a` (Python `list.extend`). -/
def heapSet (h : PyHeap) (a : Nat) (v : List String) : PyHeap :=
  ⟨fun b => if b = a then v else h.store b, h.next⟩

/-- The slice `lines[pos:pos+target]` read from the heap. -/
def sliceAt (h : PyHeap) (linesAddr index pos : Nat) : List String :=
  ((h.store linesAddr).drop pos).take (targetOf index)

/-- One loop iteration on the heap: allocate the slice as a fresh list
(Python slicing copies) and, when it is short, extend that fresh list in
place (`chunk.extend`, source line 37). -/
def heapStep (h : PyHeap) (linesAddr index pos : Nat) : PyHeap :=
  if (sliceAt h linesAddr index pos).length < targetOf index then
    heapSet (heapAlloc h (sliceAt h linesAddr index pos)).1
      (heapAlloc h (sliceAt h linesAddr index pos)).2
      (sliceAt h linesAddr index pos
        ++ List.replicate (targetOf index - (sliceAt h linesAddr index pos).length) "\n")
  else (heapAlloc h (sliceAt h linesAddr index pos)).1

/-- The while-loop of `write_exports` acting on the heap; returns the
final heap. -/
def writeLoopH (linesAddr : Nat) : Nat → Nat → Nat → PyHeap → PyHeap
  | 0, _, _, h => h
  | fuel + 1, index, pos, h =>
    if pos < (h.store linesAddr).length then
      writeLoopH linesAddr fuel (index + 1) (pos + targetOf index)
        (heapStep h linesAddr index pos)
    else h

/-- Run `write_exports` on a heap whose only live list is `lines` at
address 0; returns the final heap. -/
def write_exports_heap (lines : List String) : PyHeap :=
  writeLoopH 0 lines.length 1 0 ⟨fun a => if a = 0 then lines else [], 1⟩

/-! ### Basic lemmas about the partitioner -/

lemma targetOf_pos (index : Nat) : 0 < targetOf index := by
  unfold targetOf SIZE_ODD SIZE_EVEN
  split <;> omega

lemma chunkAt_length (lines : List String) (index pos : Nat) :
    (chunkAt lines index pos).length = min (targetOf index) (lines.length - pos) := by
  simp [chunkAt]

lemma chunkAt_length_le (lines : List String) (index pos : Nat) :
    (chunkAt lines index pos).length ≤ targetOf index := by
  rw [chunkAt_length]
  exact Nat.min_le_left _ _

lemma unitAt_index (lines : List String) (index pos : Nat) :
    (unitAt lines index pos).index = index := rfl

lemma unitAt_name (lines : List String) (index pos : Nat) :
    (unitAt lines index pos).name = partName index := rfl

lemma unitAt_padCount (lines : List String) (index pos : Nat) :
    (unitAt lines index pos).padCount
      = targetOf index - (chunkAt lines index pos).length := rfl

lemma unitAt_lines (lines : List String) (index pos : Nat) :
    (unitAt lines index pos).lines =
      if (chunkAt lines index pos).length < targetOf index then
        chunkAt lines index pos
          ++ List.replicate (targetOf index - (chunkAt lines index pos).length) "\n"
      else chunkAt lines index pos := rfl

lemma unitAt_lines_length (lines : List String) (index pos : Nat) :
    (unitAt lines index pos).lines.length = targetOf index := by
  have h1 := chunkAt_length_le lines index pos
  rw [unitAt_lines]
  split
  · simp only [List.length_append, List.length_replicate]
    omega
  · omega

lemma unpadded_unitAt (lines : List String) (index pos : Nat) :
    unpadded (unitAt lines index pos) = chunkAt lines index pos := by
  have h1 := chunkAt_length_le lines index pos
  unfold unpadded
  rw [unitAt_lines_length, unitAt_padCount,
    show targetOf index - (targetOf index - (chunkAt lines index pos).length)
      = (chunkAt lines index pos).length by omega, unitAt_lines]
  split
  · exact List.take_left _ _
  · exact List.take_length _

lemma writeLoop_stop (lines : List String) (fuel index pos : Nat)
    (h : lines.length ≤ pos) : writeLoop lines fuel index pos = [] := by
  cases fuel with
  | zero => rfl
  | succ n =>
    simp only [writeLoop]
    rw [if_neg (Nat.not_lt.mpr h)]

lemma writeLoop_fuel (lines : List String) :
    ∀ f1 f2 index pos, lines.length - pos ≤ f1 → lines.length - pos ≤ f2 →
      writeLoop lines f1 index pos = writeLoop lines f2 index pos := by
  intro f1
  induction f1 with
  | zero =>
    intro f2 index pos h1 h2
    have h : lines.length ≤ pos := by omega
    rw [writeLoop_stop _ _ _ _ h, writeLoop_stop _ _ _ _ h]
  | succ n ih =>
    intro f2 index pos h1 h2
    by_cases hp : pos < lines.length
    · cases f2 with
      | zero => omega
      | succ m =>
        simp only [writeLoop]
        rw [if_pos hp, if_pos hp]
        congr 1
        have ht := targetOf_pos index
        exact ih _ _ _ (by omega) (by omega)
    · rw [writeLoop_stop _ _ _ _ (by omega), writeLoop_stop _ _ _ _ (by omega)]

lemma mem_writeLoop (lines : List String) :
    ∀ fuel index pos u, u ∈ writeLoop lines fuel index pos →
      ∃ i p, p < lines.length ∧ u = unitAt lines i p := by
  intro fuel
  induction fuel with
  | zero =>
    intro index pos u h
    simp [writeLoop] at h
  | succ n ih =>
    intro index pos u h
    by_cases hp : pos < lines.length
    · simp only [writeLoop, if_pos hp, List.mem_cons] at h
      rcases h with h | h
      · exact ⟨index, pos, hp, h⟩
      · exact ih _ _ _ h
    · rw [writeLoop_stop _ _ _ _ (by omega)] at h
      simp at h

lemma writeLoop_map_index (lines : List String) :
    ∀ fuel index pos, (writeLoop lines fuel index pos).map OutUnit.index
      = List.range' index (writeLoop lines fuel index pos).length := by
  intro fuel
  induction fuel with
  | zero => intro index pos; rfl
  | succ n ih =>
    intro index pos
    by_cases hp : pos < lines.length
    · simp only [writeLoop, if_pos hp, List.map_cons, List.length_cons,
        List.range'_succ, unitAt_index]
      rw [ih]
    · rw [writeLoop_stop _ _ _ _ (by omega)]
      rfl

lemma writeLoop_flat (lines : List String) :
    ∀ fuel index pos, lines.length - pos ≤ fuel →
      ((writeLoop lines fuel index pos).map unpadded).flatten = lines.drop pos := by
  intro fuel
  induction fuel with
  | zero =>
    intro index pos h
    rw [writeLoop_stop _ _ _ _ (by omega), List.drop_eq_nil_of_le (by omega)]
    rfl
  | succ n ih =>
    intro index pos h
    by_cases hp : pos < lines.length
    · have ht := targetOf_pos index
      simp only [writeLoop, if_pos hp, List.map_cons, List.flatten_cons]
      rw [unpadded_unitAt, ih _ _ (by omega)]
      rw [show lines.drop (pos + targetOf index)
            = (lines.drop pos).drop (targetOf index) from (List.drop_drop _ _ _).symm]
      exact List.take_append_drop _ _
    · rw [writeLoop_stop _ _ _ _ (by omega), List.drop_eq_nil_of_le (by omega)]
      rfl

lemma unitAt_full (lines : List String) (index pos : Nat)
    (h : targetOf index ≤ (chunkAt lines index pos).length) :
    unitAt lines index pos = ⟨index, partName index, chunkAt lines index pos, 0⟩ := by
  have hle := chunkAt_length_le lines index pos
  unfold unitAt
  rw [if_neg (by omega),
    show targetOf index - (chunkAt lines index pos).length = 0 by omega]

lemma unitAt_short (lines : List String) (index pos : Nat)
    (h : (chunkAt lines index pos).length < targetOf index) :
    unitAt lines index pos =
      ⟨index, partName index,
       chunkAt lines index pos
         ++ List.replicate (targetOf index - (chunkAt lines index pos).length) "\n",
       targetOf index - (chunkAt lines index pos).length⟩ := by
  unfold unitAt
  rw [if_pos h]

lemma writeLoop_step (lines : List String) (fuel index pos : Nat)
    (hp : pos < lines.length) :
    writeLoop lines (fuel + 1) index pos
      = unitAt lines index pos :: writeLoop lines fuel (index + 1) (pos + targetOf index) := by
  simp only [writeLoop]
  rw [if_pos hp]

/-! ### Lemmas about the heap model -/

lemma heapStep_next (h : PyHeap) (linesAddr index pos : Nat) :
    (heapStep h linesAddr index pos).next = h.next + 1 := by
  unfold heapStep heapAlloc heapSet
  split <;> rfl

lemma heapStep_store (h : PyHeap) (linesAddr index pos : Nat) (a : Nat)
    (ha : a < h.next) : (heapStep h linesAddr index pos).store a = h.store a := by
  have hne : a ≠ h.next := by omega
  unfold heapStep heapAlloc heapSet
  split <;> simp [hne]

lemma writeLoopH_frame (linesAddr : Nat) :
    ∀ fuel index pos h, linesAddr < h.next →
      (writeLoopH linesAddr fuel index pos h).store linesAddr = h.store linesAddr := by
  intro fuel
  induction fuel with
  | zero => intro index pos h hlt; rfl
  | succ n ih =>
    intro index pos h hlt
    simp only [writeLoopH]
    split
    · rw [ih _ _ _ (by rw [heapStep_next]; omega), heapStep_store _ _ _ _ _ hlt]
    · rfl

/-! ### Claim theorems -/

/-- C1: For every non-empty Line Sequence, concatenating the lines of all
chunks emitted by the partitioner, with each chunk's padding lines removed,
yields exactly the original Line Sequence, in order. -/
theorem C1_unpadded_concat (lines : List String) (_h : lines ≠ []) :
    ((write_exports lines).map unpadded).flatten = lines := by
  have hf := writeLoop_flat lines lines.length 1 0 (by omega)
  unfold write_exports
  rw [hf, List.drop_zero]

theorem C1_unpadded_concat_w :
    (["a"] : List String) ≠ []
      ∧ ((write_exports ["a"]).map unpadded).flatten = ["a"] :=
  ⟨by decide, C1_unpadded_concat ["a"] (by decide)⟩

/-- C2: Every chunk emitted by the partitioner has length exactly equal to
its parity-determined target size `targetOf` of its 1-based index, padding
included. -/
theorem C2_chunk_target_length (lines : List String) (u : OutUnit)
    (hu : u ∈ write_exports lines) : u.lines.length = targetOf u.index := by
  obtain ⟨i, p, hp, rfl⟩ := mem_writeLoop lines _ _ _ u hu
  rw [unitAt_index, unitAt_lines_length]

theorem C2_chunk_target_length_w :
    unitAt ["a"] 1 0 ∈ write_exports ["a"]
      ∧ (unitAt ["a"] 1 0).lines.length = targetOf (unitAt ["a"] 1 0).index := by
  have hmem : unitAt ["a"] 1 0 ∈ write_exports ["a"] := by
    show unitAt ["a"] 1 0 ∈ unitAt ["a"] 1 0 :: writeLoop ["a"] 0 2 (0 + targetOf 1)
    exact List.mem_cons_self _ _
  exact ⟨hmem, C2_chunk_target_length ["a"] _ hmem⟩

/-- C3: The target size alternates by chunk-index parity and not by
content: `SIZE_ODD = 225` for odd 1-based indices, `SIZE_EVEN = 180` for
even ones, with odd-indexed chunks strictly larger than even-indexed
ones. -/
theorem C3_target_parity :
    SIZE_ODD = 225 ∧ SIZE_EVEN = 180 ∧ SIZE_EVEN < SIZE_ODD ∧
    (∀ index : Nat, index % 2 = 1 → targetOf index = SIZE_ODD) ∧
    (∀ index : Nat, index % 2 = 0 → targetOf index = SIZE_EVEN) ∧
    (∀ (lines : List String), ∀ u ∈ write_exports lines,
      (u.index % 2 = 1 → u.lines.length = SIZE_ODD) ∧
      (u.index % 2 = 0 → u.lines.length = SIZE_EVEN)) := by
  refine ⟨rfl, rfl, by decide, ?_, ?_, ?_⟩
  · intro i hi
    unfold targetOf
    rw [if_pos hi]
  · intro i hi
    unfold targetOf
    rw [if_neg (by omega)]
  · intro lines u hu
    obtain ⟨i, p, hp, rfl⟩ := mem_writeLoop lines _ _ _ u hu
    rw [unitAt_index]
    constructor
    · intro h1
      rw [unitAt_lines_length]
      unfold targetOf
      rw [if_pos h1]
    · intro h0
      rw [unitAt_lines_length]
      unfold targetOf
      rw [if_neg (by omega)]

theorem C3_target_parity_w :
    unitAt ["a"] 1 0 ∈ write_exports ["a"]
      ∧ (unitAt ["a"] 1 0).index % 2 = 1
      ∧ (unitAt ["a"] 1 0).lines.length = SIZE_ODD := by
  have hmem : unitAt ["a"] 1 0 ∈ write_exports ["a"] := by
    show unitAt ["a"] 1 0 ∈ unitAt ["a"] 1 0 :: writeLoop ["a"] 0 2 (0 + targetOf 1)
    exact List.mem_cons_self _ _
  have hodd : (unitAt ["a"] 1 0).index % 2 = 1 := rfl
  exact ⟨hmem, hodd, (C3_target_parity.2.2.2.2.2 ["a"] _ hmem).1 hodd⟩

/-- C5: The partitioning loop terminates for every finite Line Sequence:
each iteration advances the cursor by a positive target, so
`lines.length - pos` iterations of fuel always compute the loop's fixed
result, and the empty Line Sequence produces zero chunks. -/
theorem C5_loop_terminates :
    (∀ index : Nat, 0 < targetOf index) ∧
    (∀ (lines : List String) (fuel index pos : Nat), lines.length - pos ≤ fuel →
      writeLoop lines fuel index pos = writeLoop lines (lines.length - pos) index pos) ∧
    write_exports ([] : List String) = [] := by
  refine ⟨targetOf_pos, ?_, rfl⟩
  intro lines fuel index pos h
  exact writeLoop_fuel lines fuel _ index pos h (Nat.le_refl _)

theorem C5_loop_terminates_w :
    (["a"] : List String).length - 0 ≤ 7
      ∧ writeLoop ["a"] 7 1 0 = writeLoop ["a"] ((["a"] : List String).length - 0) 1 0 :=
  ⟨by decide, C5_loop_terminates.2.1 ["a"] 7 1 0 (by decide)⟩

/-- C6: The partitioner never emits a chunk consisting entirely of padding,
and a Line Sequence of length exactly `SIZE_ODD` yields exactly one chunk,
with index 1 and zero padding lines. -/
theorem C6_no_all_padding_chunk :
    (∀ (lines : List String), ∀ u ∈ write_exports lines,
      u.padCount < targetOf u.index) ∧
    (∀ lines : List String, lines.length = SIZE_ODD →
      write_exports lines = [⟨1, partName 1, lines, 0⟩]) := by
  constructor
  · intro lines u hu
    obtain ⟨i, p, hp, rfl⟩ := mem_writeLoop lines _ _ _ u hu
    rw [unitAt_index, unitAt_padCount]
    have h1 := chunkAt_length lines i p
    have h2 := targetOf_pos i
    omega
  · intro lines h
    have ht1 : targetOf 1 = SIZE_ODD := rfl
    have hc : chunkAt lines 1 0 = lines := by
      unfold chunkAt
      rw [List.drop_zero, ht1, ← h, List.take_length]
    unfold write_exports
    rw [h, show (SIZE_ODD : Nat) = 224 + 1 from rfl,
      writeLoop_step _ _ _ _ (by rw [h]; decide),
      writeLoop_stop lines 224 2 (0 + targetOf 1) (by rw [h, ht1]; omega),
      unitAt_full lines 1 0 (by rw [hc, ht1, h]), hc]

theorem C6_no_all_padding_chunk_w :
    (List.replicate SIZE_ODD ("x")).length = SIZE_ODD
      ∧ write_exports (List.replicate SIZE_ODD ("x"))
          = [⟨1, partName 1, List.replicate SIZE_ODD ("x"), 0⟩] :=
  ⟨by simp, C6_no_all_padding_chunk.2 _ (by simp)⟩

/-- C4: A Line Sequence of length `SIZE_ODD + 1` (226) yields exactly two
chunks: chunk 1 is the first `SIZE_ODD` lines with no padding, chunk 2 is
the one remaining line followed by `SIZE_EVEN - 1` empty padding lines. -/
theorem C4_boundary_odd_plus_one (lines : List String)
    (h : lines.length = SIZE_ODD + 1) :
    write_exports lines =
      [⟨1, partName 1, lines.take SIZE_ODD, 0⟩,
       ⟨2, partName 2, lines.drop SIZE_ODD ++ List.replicate (SIZE_EVEN - 1) "\n",
        SIZE_EVEN - 1⟩] := by
  have ht1 : targetOf 1 = SIZE_ODD := rfl
  have ht2 : targetOf 2 = SIZE_EVEN := rfl
  have hc1 : chunkAt lines 1 0 = lines.take SIZE_ODD := by
    unfold chunkAt
    rw [List.drop_zero, ht1]
  have hc1len : (chunkAt lines 1 0).length = SIZE_ODD := by
    rw [chunkAt_length, ht1, h]
    omega
  have hd : (lines.drop SIZE_ODD).length = 1 := by
    rw [List.length_drop, h]
    omega
  have hc2 : chunkAt lines 2 (0 + targetOf 1) = lines.drop SIZE_ODD := by
    unfold chunkAt
    rw [Nat.zero_add, ht1, ht2]
    exact List.take_of_length_le (by rw [hd]; decide)
  have hc2len : (chunkAt lines 2 (0 + targetOf 1)).length = 1 := by
    rw [hc2, hd]
  unfold write_exports
  rw [h, writeLoop_step _ _ _ _ (by rw [h]; decide),
    show writeLoop lines SIZE_ODD 2 (0 + targetOf 1)
      = writeLoop lines (224 + 1) 2 (0 + targetOf 1) from rfl,
    writeLoop_step _ _ _ _ (by rw [Nat.zero_add, ht1, h]; omega),
    writeLoop_stop lines 224 3 (0 + targetOf 1 + targetOf 2)
      (by rw [ht1, ht2, h]
          have he : (1 : Nat) ≤ SIZE_EVEN := by decide
          omega),
    unitAt_full lines 1 0 (by rw [hc1len]; exact le_of_eq ht1), hc1,
    unitAt_short lines 2 (0 + targetOf 1) (by rw [hc2len, ht2]; decide),
    hc2len, ht2, hc2]

theorem C4_boundary_odd_plus_one_w :
    (List.replicate (SIZE_ODD + 1) ("a")).length = SIZE_ODD + 1
      ∧ write_exports (List.replicate (SIZE_ODD + 1) ("a"))
          = [⟨1, partName 1, (List.replicate (SIZE_ODD + 1) ("a")).take SIZE_ODD, 0⟩,
             ⟨2, partName 2, (List.replicate (SIZE_ODD + 1) ("a")).drop SIZE_ODD
                 ++ List.replicate (SIZE_EVEN - 1) "\n", SIZE_EVEN - 1⟩] :=
  ⟨by simp, C4_boundary_odd_plus_one _ (by simp)⟩

/-- C7: Emitted chunk indices form the contiguous run 1, 2, 3, … with no
gaps or repeats, and each chunk is written to the unit named by its index
zero-padded to at least 3 digits, `part_001.txt`, `part_002.txt`, …. -/
theorem C7_indices_and_names (lines : List String) :
    (write_exports lines).map OutUnit.index
        = List.range' 1 (write_exports lines).length ∧
    (∀ u ∈ write_exports lines, u.name = partName u.index) ∧
    (∀ index : Nat, 3 ≤ (zeroPad3 index).length
      ∧ (Nat.repr index).data <:+ (zeroPad3 index).data) ∧
    partName 1 = "part_001.txt" ∧ partName 2 = "part_002.txt" := by
  refine ⟨writeLoop_map_index lines _ 1 0, ?_, ?_, by decide, by decide⟩
  · intro u hu
    obtain ⟨i, p, hp, rfl⟩ := mem_writeLoop lines _ _ _ u hu
    rw [unitAt_name, unitAt_index]
  · intro index
    constructor
    · show 3 ≤ (List.replicate (3 - (Nat.repr index).length) '0'
          ++ (Nat.repr index).data).length
      have hx : (Nat.repr index).length = (Nat.repr index).data.length := rfl
      rw [List.length_append, List.length_replicate]
      omega
    · unfold zeroPad3
      exact List.suffix_append _ _

theorem C7_indices_and_names_w :
    (write_exports ["a"]).map OutUnit.index
        = List.range' 1 (write_exports ["a"]).length
      ∧ (unitAt ["a"] 1 0).name = partName (unitAt ["a"] 1 0).index := by
  have hmem : unitAt ["a"] 1 0 ∈ write_exports ["a"] := by
    show unitAt ["a"] 1 0 ∈ unitAt ["a"] 1 0 :: writeLoop ["a"] 0 2 (0 + targetOf 1)
    exact List.mem_cons_self _ _
  exact ⟨(C7_indices_and_names ["a"]).1, (C7_indices_and_names ["a"]).2.1 _ hmem⟩

/-- C10: The partitioner does not modify its input: in the heap model of
Python lists, the list passed to `write_exports` is identical before and
after the run — padding extends a freshly allocated slice copy, never the
original. -/
theorem C10_input_unchanged (lines : List String) :
    (write_exports_heap lines).store 0 = lines := by
  unfold write_exports_heap
  rw [writeLoopH_frame 0 lines.length 1 0
      ⟨fun a => if a = 0 then lines else [], 1⟩ Nat.zero_lt_one]
  simp

/-! ### Lemmas about the line collector -/

lemma takeWhile_nl_nil {xs : List Char} (h : ∀ c ∈ xs, c ≠ '\n') :
    xs.takeWhile (fun c => c == '\n') = [] := by
  cases xs with
  | nil => rfl
  | cons a t =>
    rw [List.takeWhile_cons]
    have ha := h a (List.mem_cons_self a t)
    simp [ha]

lemma trailingNL_snoc (s : String) (xs : List Char)
    (hdata : s.data = xs ++ ['\n']) (hxs : ∀ c ∈ xs, c ≠ '\n') :
    trailingNL s = 1 := by
  unfold trailingNL
  rw [hdata, List.reverse_append,
    show (['\n'] : List Char).reverse = ['\n'] from rfl,
    List.singleton_append, List.takeWhile_cons,
    if_pos (by decide : (('\n' == '\n') = true)),
    takeWhile_nl_nil (fun c hc => hxs c (List.mem_reverse.mp hc))]
  rfl

lemma trailingNL_pair (s : String) (xs : List Char) (c : Char) (hc : c ≠ '\n')
    (hdata : s.data = xs ++ [c, '\n']) : trailingNL s = 1 := by
  unfold trailingNL
  rw [hdata, List.reverse_append,
    show ([c, '\n'] : List Char).reverse = ['\n', c] from rfl,
    show (['\n', c] : List Char) ++ xs.reverse = '\n' :: c :: xs.reverse from rfl,
    List.takeWhile_cons, if_pos (by decide : (('\n' == '\n') = true)),
    List.takeWhile_cons,
    if_neg (by simp [hc] : ¬(((c == '\n') = true)))]
  rfl

lemma trailingNL_headerLine (path : String) : trailingNL (headerLine path) = 1 := by
  apply trailingNL_pair (headerLine path) ("-- ".data ++ path.data ++ [' ', '-'])
    '-' (by decide)
  have hgrp : (headerLine path).data
      = ("-- ".data ++ path.data) ++ ([' ', '-'] ++ ['-', '\n']) := rfl
  rw [hgrp, ← List.append_assoc]

lemma trailingNL_normalizeLine (l : String) (h : LineShaped l) :
    trailingNL (normalizeLine l) = 1 := by
  unfold normalizeLine
  by_cases hl : l.data.getLast? = some '\n'
  · rw [if_pos hl]
    have hne : l.data ≠ [] := by
      intro h0
      rw [h0] at hl
      simp at hl
    have hlast : l.data.getLast hne = '\n' := by
      have h2 := List.getLast?_eq_getLast l.data hne
      rw [h2] at hl
      exact Option.some.inj hl
    have hdata : l.data = l.data.dropLast ++ ['\n'] := by
      have h3 := List.dropLast_append_getLast hne
      rw [hlast] at h3
      exact h3.symm
    exact trailingNL_snoc l l.data.dropLast hdata h
  · rw [if_neg hl]
    apply trailingNL_snoc (l ++ "\n") l.data rfl
    intro c hc
    by_cases hne : l.data = []
    · rw [hne] at hc
      simp at hc
    · have h3 := List.dropLast_append_getLast hne
      rw [← h3] at hc
      rcases List.mem_append.mp hc with hc1 | hc2
      · exact h c hc1
      · intro hceq
        apply hl
        rw [List.getLast?_eq_getLast l.data hne, ← List.mem_singleton.mp hc2, hceq]

lemma trailingNL_read_all (fs : String → Except String (List String))
    (hfs : ∀ p raw, fs p = Except.ok raw → ∀ l ∈ raw, LineShaped l) :
    ∀ file_list, ∀ s ∈ read_all_lines fs file_list, trailingNL s = 1 := by
  intro fl
  induction fl with
  | nil =>
    intro s hs
    simp [read_all_lines] at hs
  | cons path rest ih =>
    intro s hs
    simp only [read_all_lines, List.mem_cons, List.mem_append] at hs
    rcases hs with rfl | hs | rfl | hs
    · exact trailingNL_headerLine path
    · unfold fileLines at hs
      cases hfp : fs path with
      | ok raw =>
        rw [hfp] at hs
        simp only [List.mem_map] at hs
        obtain ⟨l, hl, rfl⟩ := hs
        exact trailingNL_normalizeLine l (hfs path raw hfp l hl)
      | error e =>
        rw [hfp] at hs
        simp at hs
    · decide
    · exact ih s hs

/-- C8: When a file read fails, the collector reports the failure and
continues with the next identifier: the failing file contributes exactly
its header line followed by the blank separator line, and the separator is
emitted for every file regardless of whether reading succeeded. -/
theorem C8_read_failure (fs : String → Except String (List String))
    (path exc : String) (rest : List String) (h : fs path = Except.error exc) :
    read_all_lines fs (path :: rest)
        = headerLine path :: "\n" :: read_all_lines fs rest
      ∧ read_diags fs (path :: rest) = errMsg path exc :: read_diags fs rest
      ∧ ∀ (fs2 : String → Except String (List String)) (q : String)
          (rest2 : List String),
          read_all_lines fs2 (q :: rest2)
            = headerLine q :: (fileLines fs2 q ++ "\n" :: read_all_lines fs2 rest2) := by
  refine ⟨?_, ?_, fun fs2 q rest2 => rfl⟩
  · show headerLine path :: (fileLines fs path ++ "\n" :: read_all_lines fs rest) = _
    rw [show fileLines fs path = [] from by unfold fileLines; rw [h]]
    rfl
  · show fileDiags fs path ++ read_diags fs rest = _
    rw [show fileDiags fs path = [errMsg path exc] from by unfold fileDiags; rw [h]]
    rfl

theorem C8_read_failure_w :
    read_all_lines (fun _ => Except.error ("denied")) ["secret.txt"]
        = headerLine ("secret.txt")
            :: "\n" :: read_all_lines (fun _ => Except.error ("denied")) []
      ∧ read_diags (fun _ => Except.error ("denied")) ["secret.txt"]
          = errMsg ("secret.txt") ("denied")
              :: read_diags (fun _ => Except.error ("denied")) [] := by
  have h := C8_read_failure (fun _ => Except.error ("denied")) ("secret.txt")
    ("denied") [] rfl
  exact ⟨h.1, h.2.1⟩

/-- C9: Every element of the Line Sequence produced by the collector ends
with exactly one trailing newline, provided the raw content lines are
line-shaped (no interior newline, as Python file iteration yields them);
a newline is appended to a content line that lacks one, and lines already
ending in a newline pass through unchanged. -/
theorem C9_trailing_newline (fs : String → Except String (List String))
    (file_list : List String)
    (hfs : ∀ p raw, fs p = Except.ok raw → ∀ l ∈ raw, LineShaped l) :
    (∀ s ∈ read_all_lines fs file_list, trailingNL s = 1) ∧
    (∀ l : String, (l.data.getLast? = some '\n' → normalizeLine l = l) ∧
      (l.data.getLast? ≠ some '\n' → normalizeLine l = l ++ "\n")) := by
  refine ⟨trailingNL_read_all fs hfs file_list, fun l => ⟨fun hl => ?_, fun hl => ?_⟩⟩
  · unfold normalizeLine
    rw [if_pos hl]
  · unfold normalizeLine
    rw [if_neg hl]

theorem C9_trailing_newline_w :
    headerLine ("f") ∈ read_all_lines (fun _ => Except.ok [("x"), ("y\n")]) [("f")]
      ∧ trailingNL (headerLine ("f")) = 1 := by
  have hfs : ∀ (p : String) (raw : List String),
      (fun _ : String => (Except.ok [("x"), ("y\n")] : Except String (List String))) p
        = Except.ok raw → ∀ l ∈ raw, LineShaped l := by
    intro p raw hh l hl
    have hh2 : ([("x"), ("y\n")] : List String) = raw := Except.ok.inj hh
    subst hh2
    exact (by decide : ∀ x ∈ ([("x"), ("y\n")] : List String), LineShaped x) l hl
  have hmem : headerLine ("f")
      ∈ read_all_lines (fun _ => Except.ok [("x"), ("y\n")]) [("f")] :=
    List.mem_cons_self _ _
  exact ⟨hmem, (C9_trailing_newline _ [("f")] hfs).1 _ hmem⟩
